import Mathlib

/-!
Shallow embedding of the command layer of the Bubble Tea TUI framework
(file `commands.go` of package `tea`).

In Go, `Cmd = func() Msg` and `Msg = interface\x7b\x7d`; a `Cmd` value may be
`nil`, and a command may return a `nil` message.  The only observation the
framework makes of a command is the message produced by invoking it, so a
non-nil command is embedded as the message it returns (`Cmd.ret`), and a
possibly-nil command as `Option Cmd` (with `none` for Go's `nil`).  A
possibly-nil message is `Option Msg`.  Composite messages (`BatchMsg`,
`sequenceMsg`) carry `[]Cmd` slices whose entries may themselves be nil,
hence `List (Option Cmd)`.  All other (user-defined) messages are
represented by the opaque constructor `Msg.plain`.
-/

namespace Tea

mutual

/-- Embedding of Go's `Msg` interface: the message variants that
`commands.go` constructs or inspects, plus `plain` for every other
(user-defined) message. -/
inductive Msg : Type where
  /-- `BatchMsg []Cmd`: commands to run concurrently. -/
  | batchMsg (cmds : List (Option Cmd)) : Msg
  /-- `sequenceMsg []Cmd`: commands to run in order. -/
  | sequenceMsg (cmds : List (Option Cmd)) : Msg
  /-- `WrappedMsg\x7bId int; Msg Msg\x7d`: a routed message; its `Msg`
  field may be Go-nil. -/
  | wrappedMsg (id : Int) (msg : Option Msg) : Msg
  /-- `setWindowTitleMsg string`. -/
  | setWindowTitleMsg (title : String) : Msg
  /-- Any other message value, identified by an opaque payload. -/
  | plain (payload : Nat) : Msg

/-- Embedding of a non-nil Go `Cmd = func() Msg`: determined by the
(possibly nil) message its invocation returns. -/
inductive Cmd : Type where
  | ret (msg : Option Msg) : Cmd

end

/-- Invoke a (non-nil) command: `cmd()` in Go. -/
def Cmd.run : Cmd → Option Msg
  | .ret m => m

/-- Embedding of `Batch(cmds ...Cmd) Cmd` from `commands.go`: drop nil
entries; if none remain return nil, else a command yielding
`BatchMsg(validCmds)`. -/
def Batch (cmds : List (Option Cmd)) : Option Cmd :=
  let validCmds := cmds.filter fun c => c.isSome
  if validCmds.length = 0 then
    none
  else
    some (Cmd.ret (some (Msg.batchMsg validCmds)))

/-- Embedding of `Sequence(cmds ...Cmd) Cmd` from `commands.go`: a command
yielding `sequenceMsg(cmds)` (no filtering, never nil). -/
def Sequence (cmds : List (Option Cmd)) : Option Cmd :=
  some (Cmd.ret (some (Msg.sequenceMsg cmds)))

mutual

/-- Embedding of the closure built by `Wrap(cmd, id)` for non-nil `cmd`,
applied to the message `msg := cmd()` that the inner command returned:
a `BatchMsg` or `sequenceMsg` is re-rolled with each non-nil contained
command individually wrapped; any other message (including Go-nil) is
returned as `WrappedMsg\x7bId: id, Msg: msg\x7d`. -/
def wrapMsg : Option Msg → Int → Msg
  | some (Msg.batchMsg cmds), id => Msg.batchMsg (wrapList cmds id)
  | some (Msg.sequenceMsg cmds), id => Msg.sequenceMsg (wrapList cmds id)
  | msg, id => Msg.wrappedMsg id msg

/-- The re-wrapping loop of `Wrap`: skip nil entries, wrap the rest. -/
def wrapList : List (Option Cmd) → Int → List (Option Cmd)
  | [], _ => []
  | none :: rest, id => wrapList rest id
  | some c :: rest, id => some (wrapCmd c id) :: wrapList rest id

/-- Wrapping of a non-nil command: the closure returned by `Wrap`
invokes the command and transforms its message. -/
def wrapCmd : Cmd → Int → Cmd
  | Cmd.ret msg, id => Cmd.ret (some (wrapMsg msg id))

end

/-- Embedding of `Wrap(cmd Cmd, id int) Cmd` from `commands.go`: nil
passes through; otherwise a command whose invocation runs `cmd` and
transforms the resulting message as `wrapMsg` does. -/
def Wrap (cmd : Option Cmd) (id : Int) : Option Cmd :=
  match cmd with
  | none => none
  | some c => some (wrapCmd c id)

/-- Embedding of the loop body of `Sequentially(cmds ...Cmd)`: run the
commands in order, skipping nil entries, and return the first non-nil
message; nil if there is none. -/
def seqRun : List (Option Cmd) → Option Msg
  | [] => none
  | none :: rest => seqRun rest
  | some c :: rest =>
    match c.run with
    | some m => some m
    | none => seqRun rest

/-- Embedding of the deprecated `Sequentially(cmds ...Cmd) Cmd` from
`commands.go`: always a non-nil command, whose message is the first
non-nil message produced by the commands in order. -/
def Sequentially (cmds : List (Option Cmd)) : Option Cmd :=
  some (Cmd.ret (seqRun cmds))

/-- Embedding of `SetWindowTitle(title string) Cmd` from `commands.go`. -/
def SetWindowTitle (title : String) : Option Cmd :=
  some (Cmd.ret (some (Msg.setWindowTitleMsg title)))

/-- True on the two composite message variants (`BatchMsg`,
`sequenceMsg`) that `Wrap` treats specially. -/
def Msg.isComposite : Msg → Bool
  | .batchMsg _ => true
  | .sequenceMsg _ => true
  | _ => false

/-- True when invoking the possibly-nil command yields no message:
either the command is nil or it returns a nil message. -/
def producesNoMsg : Option Cmd → Bool
  | none => true
  | some c => c.run.isNone

/-!
Time is embedded as `Int` nanoseconds since Go's zero time, as in the
`time` package's absolute representation.
-/

/-- Modelled from the spec: Go's standard-library `time.Time.Truncate`
(not part of this repository) rounds the instant down to the nearest
multiple of `d` since the zero time; for `d ≤ 0` it returns the instant
unchanged.  With `Int.emod`, `t % d` for `0 < d` is the remainder in
`[0, d)`, matching the normalised remainder the `time` package computes. -/
def truncate (t d : Int) : Int :=
  if d ≤ 0 then t else t - t % d

/-- The delay computed by the closure of `Every(duration, fn)` in
`commands.go` when invoked at instant `n`:
`n.Truncate(duration).Add(duration).Sub(n)`. -/
def everyDelay (duration n : Int) : Int :=
  truncate n duration + duration - n

/-- The instant at which the timer started by `Every` fires: the timer is
created with `everyDelay` and delivers the instant of its expiry.
Modelled from the spec: the blocking `time.NewTimer` wait is Go
standard-library behaviour, embedded as expiring exactly after the
requested delay. -/
def everyFire (duration n : Int) : Int :=
  n + everyDelay duration n

/-- Embedding of the closure of `Every(duration, fn)` from `commands.go`,
as a function of the invocation instant `n` (Go's `time.Now()`): it
applies `fn` to the instant delivered by the timer. -/
def Every (duration : Int) (fn : Int → Msg) (n : Int) : Msg :=
  fn (everyFire duration n)

/-- The instant at which the timer started by `Tick(d, fn)` fires when
invoked at instant `n`.  Modelled from the spec: the blocking
`time.NewTimer(d)` wait is Go standard-library behaviour, embedded as
expiring exactly `d` after invocation. -/
def tickFire (d n : Int) : Int :=
  n + d

/-- Embedding of the closure of `Tick(d, fn)` from `commands.go`, as a
function of the invocation instant `n`: it applies `fn` to the instant
delivered by the timer. -/
def Tick (d : Int) (fn : Int → Msg) (n : Int) : Msg :=
  fn (tickFire d n)

/-! Helper lemmas shared by several claims. -/

/-- On a list of non-nil commands, the re-wrapping loop of `Wrap` wraps
each entry in place. -/
lemma wrapList_eq_map (cmds : List (Option Cmd)) (i : Int)
    (h : ∀ c ∈ cmds, c.isSome) :
    wrapList cmds i = cmds.map fun c => Wrap c i := by
  induction cmds with
  | nil => simp [wrapList]
  | cons hd tl ih =>
    match hd with
    | none =>
      exact absurd (h none (List.mem_cons_self _ _)) (by simp)
    | some c =>
      simp only [wrapList, List.map_cons, Wrap]
      exact congrArg _ (ih fun x hx => h x (List.mem_cons_of_mem _ hx))

/-- The re-wrapping loop of `Wrap` never emits a nil command. -/
lemma wrapList_no_nil (cmds : List (Option Cmd)) (i : Int) :
    ∀ x ∈ wrapList cmds i, x ≠ none := by
  induction cmds with
  | nil => simp [wrapList]
  | cons hd tl ih =>
    match hd with
    | none => simpa [wrapList] using ih
    | some c =>
      intro x hx
      simp only [wrapList, List.mem_cons] at hx
      rcases hx with h | h
      · simp [h]
      · exact ih x h

/-- If every command in the list is nil or yields no message, the
`Sequentially` loop returns nil. -/
lemma seqRun_all_none (cmds : List (Option Cmd))
    (h : ∀ x ∈ cmds, producesNoMsg x = true) :
    seqRun cmds = none := by
  induction cmds with
  | nil => rfl
  | cons hd tl ih =>
    have htl : ∀ x ∈ tl, producesNoMsg x = true :=
      fun x hx => h x (List.mem_cons_of_mem _ hx)
    match hd with
    | none => simpa [seqRun] using ih htl
    | some c =>
      have hc : c.run.isNone := h (some c) (List.mem_cons_self _ _)
      match hrun : c.run with
      | some m => simp [hrun] at hc
      | none => simp [seqRun, hrun, ih htl]

/-- The first command that yields a message decides the result of the
`Sequentially` loop; commands after it play no part. -/
lemma seqRun_first (pre rest : List (Option Cmd)) (c : Cmd) (m : Msg)
    (hpre : ∀ x ∈ pre, producesNoMsg x = true) (hc : c.run = some m) :
    seqRun (pre ++ some c :: rest) = some m := by
  induction pre with
  | nil => simp [seqRun, hc]
  | cons hd tl ih =>
    have htl : ∀ x ∈ tl, producesNoMsg x = true :=
      fun x hx => hpre x (List.mem_cons_of_mem _ hx)
    match hd with
    | none => simpa [seqRun] using ih htl
    | some c₂ =>
      have hc₂ : c₂.run.isNone = true := hpre (some c₂) (List.mem_cons_self _ _)
      match hrun : c₂.run with
      | some m₂ => simp [hrun] at hc₂
      | none => simp [seqRun, hrun, ih htl]

/-! Claim theorems. -/

/-- C1. `Batch` filters nil entries (in order); if no non-nil command
remains — in particular for the empty call — it returns nil; otherwise it
returns a command whose invocation yields a `BatchMsg` carrying exactly
the filtered list. -/
theorem Batch_filters_and_wraps (cmds : List (Option Cmd)) :
    (∀ x ∈ cmds.filter (fun c => c.isSome), x ≠ none) ∧
    ((cmds.filter fun c => c.isSome) = [] → Batch cmds = none) ∧
    ((cmds.filter fun c => c.isSome) ≠ [] →
      Batch cmds
        = some (Cmd.ret (some (Msg.batchMsg (cmds.filter fun c => c.isSome))))) := by
  refine ⟨?_, ?_, ?_⟩
  · intro x hx
    have := List.of_mem_filter hx
    simpa [Option.isSome_iff_ne_none] using this
  · intro h
    simp [Batch, h]
  · intro h
    have : (cmds.filter fun c => c.isSome).length ≠ 0 := by
      simpa [List.length_eq_zero] using h
    simp [Batch, this]

/-- C1 witness at a concrete input with one nil and one non-nil entry. -/
theorem Batch_filters_and_wraps_witness :
    Batch [none, some (Cmd.ret none)]
      = some (Cmd.ret (some (Msg.batchMsg [some (Cmd.ret none)]))) :=
  (Batch_filters_and_wraps [none, some (Cmd.ret none)]).2.2 (by simp)

/-- C2. Recursive wrapping law: if a command yields a composite message
carrying commands `c1..cn` (all non-nil), wrapping it yields a composite
of the same kind (batch stays batch, sequence stays sequence) carrying
`n` commands, the i-th being `Wrap(ci, id)`; since the conclusion holds
for every command, it applies again at each nesting depth. -/
theorem Wrap_composite_law (cmds : List (Option Cmd)) (i : Int)
    (h : ∀ c ∈ cmds, c.isSome) :
    Wrap (some (Cmd.ret (some (Msg.batchMsg cmds)))) i
      = some (Cmd.ret (some (Msg.batchMsg (cmds.map fun c => Wrap c i)))) ∧
    Wrap (some (Cmd.ret (some (Msg.sequenceMsg cmds)))) i
      = some (Cmd.ret (some (Msg.sequenceMsg (cmds.map fun c => Wrap c i)))) ∧
    (cmds.map fun c => Wrap c i).length = cmds.length := by
  refine ⟨?_, ?_, List.length_map _ _⟩
  · simp [Wrap, wrapCmd, wrapMsg, wrapList_eq_map cmds i h]
  · simp [Wrap, wrapCmd, wrapMsg, wrapList_eq_map cmds i h]

/-- C2 witness: a batch of one concrete command, wrapped with id 7. -/
theorem Wrap_composite_law_witness :
    Wrap (some (Cmd.ret (some (Msg.batchMsg [some (Cmd.ret none)])))) 7
      = some (Cmd.ret (some (Msg.batchMsg
          ([some (Cmd.ret none)].map fun c => Wrap c 7)))) :=
  (Wrap_composite_law [some (Cmd.ret none)] 7 (by simp)).1

/-- C3. Wrapping a command that yields a plain (non-batch, non-sequence)
message `m` yields exactly `WrappedMsg\x7bId: id, Msg: m\x7d`. -/
theorem Wrap_plain (i : Int) (m : Msg) (h : m.isComposite = false) :
    Wrap (some (Cmd.ret (some m))) i
      = some (Cmd.ret (some (Msg.wrappedMsg i (some m)))) := by
  cases m <;> simp_all [Wrap, wrapCmd, wrapMsg, Msg.isComposite]

/-- C3 witness at a concrete plain message. -/
theorem Wrap_plain_witness :
    Wrap (some (Cmd.ret (some (Msg.plain 4)))) 3
      = some (Cmd.ret (some (Msg.wrappedMsg 3 (some (Msg.plain 4))))) :=
  Wrap_plain 3 (Msg.plain 4) rfl

/-- C4. Nil-safe passthrough: `Wrap(nil, id)` is nil for every id. -/
theorem Wrap_nil (i : Int) : Wrap none i = none := rfl

/-- C5. `Sequence` returns a command whose invocation yields a
`sequenceMsg` carrying the given commands in their declared order. -/
theorem Sequence_wraps (cmds : List (Option Cmd)) :
    Sequence cmds = some (Cmd.ret (some (Msg.sequenceMsg cmds))) := rfl

/-- C6. Nil commands nested in a composite are silently dropped: the
payload of any composite message produced by `Batch`, and the payload
re-rolled by `Wrap` when unrolling a `BatchMsg` or `sequenceMsg` (even
one containing nils), never carries a nil command. -/
theorem nested_nil_dropped (cmds : List (Option Cmd)) (i : Int) :
    (∀ c m l, Batch cmds = some c → c.run = some m →
      (m = Msg.batchMsg l ∨ m = Msg.sequenceMsg l) → ∀ x ∈ l, x ≠ none) ∧
    (∀ x ∈ wrapList cmds i, x ≠ none) := by
  refine ⟨?_, wrapList_no_nil cmds i⟩
  intro c m l hbatch hrun hml x hx
  by_cases hlen : (cmds.filter fun c => c.isSome).length = 0
  · simp [Batch, hlen] at hbatch
  · simp only [Batch, hlen, if_false] at hbatch
    obtain rfl : c = Cmd.ret (some (Msg.batchMsg (cmds.filter fun c => c.isSome))) :=
      (Option.some_injective _ hbatch).symm
    simp only [Cmd.run, Option.some_inj] at hrun
    rcases hml with rfl | rfl
    · have hl : (cmds.filter fun c => c.isSome) = l := by injection hrun
      subst hl
      have := List.of_mem_filter hx
      simpa [Option.isSome_iff_ne_none] using this
    · exact absurd hrun.symm (by simp)

/-- C6 witness: unrolling a composite payload with a nil entry yields a
payload whose (single) entry is non-nil. -/
theorem nested_nil_dropped_witness :
    (some (Cmd.ret (some (Msg.wrappedMsg 0 none))) : Option Cmd) ≠ none :=
  (nested_nil_dropped [none, some (Cmd.ret none)] 0).2
    (some (Cmd.ret (some (Msg.wrappedMsg 0 none))))
    (by simp [wrapList, wrapCmd, wrapMsg])

/-- C7. For a positive duration, the delay `Every` computes before firing
equals `Truncate(n, d) + d - n`; the fire instant is a multiple of `d`,
lies strictly after the invocation instant and at most `d` after it, and
is the least such multiple (the next clock-aligned boundary); the
message is `fn` applied to the fire instant. -/
theorem Every_next_boundary (d n : Int) (fn : Int → Msg) (hd : 0 < d) :
    everyDelay d n = truncate n d + d - n ∧
    d ∣ everyFire d n ∧
    n < everyFire d n ∧
    everyFire d n ≤ n + d ∧
    (∀ m : Int, d ∣ m → n < m → everyFire d n ≤ m) ∧
    Every d fn n = fn (everyFire d n) := by
  have hd0 : ¬ d ≤ 0 := not_le.mpr hd
  have hfire : everyFire d n = d * (n / d) + d := by
    simp only [everyFire, everyDelay, truncate, hd0, if_false]
    have := Int.emod_def n d
    omega
  refine ⟨rfl, ?_, ?_, ?_, ?_, rfl⟩
  · exact hfire ▸ ⟨n / d + 1, by ring⟩
  · have h1 : n % d < d := Int.emod_lt_of_pos n hd
    have := Int.emod_def n d
    omega
  · have h2 : 0 ≤ n % d := Int.emod_nonneg n (ne_of_gt hd)
    have := Int.emod_def n d
    omega
  · rintro m ⟨k, rfl⟩ hnm
    rw [hfire]
    have hk : n / d < k := by
      rw [Int.ediv_lt_iff_lt_mul hd]
      linarith [hnm]
    nlinarith [hk]

/-- C7 witness: duration 60, invocation instant 130; the fire instant is
the next multiple of 60, namely 180. -/
theorem Every_next_boundary_witness :
    everyFire 60 130 = 180 ∧ (60 : Int) ∣ everyFire 60 130 ∧
    (130 : Int) < everyFire 60 130 :=
  ⟨by decide,
   (Every_next_boundary 60 130 (fun _ => Msg.plain 0) (by decide)).2.1,
   (Every_next_boundary 60 130 (fun _ => Msg.plain 0) (by decide)).2.2.1⟩

/-- C8. `Tick(d, fn)` fires exactly `d` after its invocation instant,
independent of clock alignment, and its message is `fn` applied to the
fire instant. -/
theorem Tick_fixed_delay (d n : Int) (fn : Int → Msg) :
    tickFire d n - n = d ∧ n + d ≤ tickFire d n ∧
    Tick d fn n = fn (tickFire d n) :=
  ⟨by simp [tickFire], le_of_eq rfl, rfl⟩

/-- C9. `Sequentially` runs the commands in declared order, skipping nil
entries; the first non-nil message decides the result regardless of the
commands that follow; if every command is nil or yields no message, the
resulting message is nil. -/
theorem Sequentially_first_non_nil (pre rest cmds : List (Option Cmd))
    (c : Cmd) (m : Msg)
    (hpre : ∀ x ∈ pre, producesNoMsg x = true) (hc : c.run = some m)
    (hall : ∀ x ∈ cmds, producesNoMsg x = true) :
    Sequentially (pre ++ some c :: rest) = some (Cmd.ret (some m)) ∧
    Sequentially cmds = some (Cmd.ret none) := by
  constructor
  · simp [Sequentially, seqRun_first pre rest c m hpre hc]
  · simp [Sequentially, seqRun_all_none cmds hall]

/-- C9 witness: a nil entry and a silent command precede the first
message-producing command; a later command is present but unused. -/
theorem Sequentially_first_non_nil_witness :
    Sequentially
        ([none, some (Cmd.ret none)]
          ++ some (Cmd.ret (some (Msg.plain 5)))
            :: [some (Cmd.ret (some (Msg.plain 9)))])
      = some (Cmd.ret (some (Msg.plain 5))) ∧
    Sequentially [none, some (Cmd.ret none)] = some (Cmd.ret none) :=
  Sequentially_first_non_nil [none, some (Cmd.ret none)]
    [some (Cmd.ret (some (Msg.plain 9)))] [none, some (Cmd.ret none)]
    (Cmd.ret (some (Msg.plain 5))) (Msg.plain 5)
    (by simp [producesNoMsg, Cmd.run]) rfl
    (by simp [producesNoMsg, Cmd.run])

/-- C10. Wrapping a non-nil command that yields no message does not
propagate the absence: the result yields `WrappedMsg` with id and a nil
payload. -/
theorem Wrap_nil_msg (i : Int) :
    Wrap (some (Cmd.ret none)) i
      = some (Cmd.ret (some (Msg.wrappedMsg i none))) := by
  simp [Wrap, wrapCmd, wrapMsg]

end Tea
